import Mathlib

/-!
Shallow embedding of promfreq (src/main.go): bucket boundary construction,
one-pass sample accumulation into cumulative buckets, and the quantile
estimator modelled from the spec. Go float64 values are modelled as exact
rationals; the float64 positive infinity used as the last bucket bound is
modelled by the dedicated constructor UB.inf.
-/

/-- Upper bound of a histogram bucket: a finite float64 value or math.Inf(1). -/
inductive UB where
  | fin : ℚ → UB
  | inf : UB
deriving DecidableEq, Repr

/-- Whether an upper bound is finite. -/
def UB.isFin : UB → Bool
  | .fin _ => true
  | .inf => false

/-- Comparison of a sample with an upper bound; every value is below math.Inf(1). -/
def leUB (v : ℚ) : UB → Bool
  | .fin b => decide (v ≤ b)
  | .inf => true

/-- promBucket from main.go: upperBound and cumulative count (float64 in Go). -/
structure promBucket where
  upperBound : UB
  count : ℚ
deriving DecidableEq, Repr

/-- The loop of Go sort.Search, specialised by sort.SearchFloat64s: binary
search over the index interval from i up to j. The fuel argument makes the
recursion structural; any fuel of at least j - i computes the value of the
Go loop. -/
def searchLoop (f : ℕ → Bool) : ℕ → ℕ → ℕ → ℕ
  | 0, i, _ => i
  | fuel + 1, i, j =>
    if i < j then
      let h := (i + j) / 2
      if f h then searchLoop f fuel i h else searchLoop f fuel (h + 1) j
    else i

/-- Go sort.SearchFloat64s a x: the least index ix with a[ix] at least x,
when a is sorted. -/
def searchFloat64s (a : List ℚ) (x : ℚ) : ℕ :=
  searchLoop (fun m => decide (x ≤ a.getD m 0)) a.length 0 a.length

/-- The increment loop of parseValues: add one to the count of every bucket
at index at least i, the infinite last bucket included. -/
def incBucketsFrom : ℕ → List promBucket → List promBucket
  | _, [] => []
  | 0, b :: rest => { b with count := b.count + 1 } :: incBucketsFrom 0 rest
  | i + 1, b :: rest => b :: incBucketsFrom i rest

/-- The accumulation state of parseValues: its named results together with
the local variable first. -/
structure AccState where
  result : List promBucket
  sum : ℚ
  count : ℚ
  min : ℚ
  max : ℚ
  first : Bool
deriving DecidableEq, Repr

/-- One input line after strings.TrimSpace: either it parses as a float64
(num, with its value) or strconv.ParseFloat fails on it (bad, with the
trimmed text of the line). -/
inductive Line where
  | num : ℚ → Line
  | bad : String → Line
deriving DecidableEq, Repr

/-- Initialisation of parseValues: one bucket per finite bound, in order,
plus the final math.Inf(1) bucket; Go zero values elsewhere. -/
def initState (buckets : List ℚ) : AccState :=
  { result := buckets.map (fun b => { upperBound := UB.fin b, count := 0 })
      ++ [{ upperBound := UB.inf, count := 0 }],
    sum := 0, count := 0, min := 0, max := 0, first := true }

/-- The body of the scanner loop of parseValues for one parsed sample. -/
def processSample (buckets : List ℚ) (st : AccState) (sample : ℚ) : AccState :=
  let st1 := if st.first then { st with min := sample, max := sample, first := false } else st
  let st2 := if sample < st1.min then { st1 with min := sample } else st1
  let st3 := if sample > st2.max then { st2 with max := sample } else st2
  { st3 with
    result := incBucketsFrom (searchFloat64s buckets sample) st3.result,
    sum := st3.sum + sample,
    count := st3.count + 1 }

/-- The scanner loop of parseValues: a line that fails to parse aborts the
whole run through printlnAndExit, modelled as an error result. -/
def parseValuesLoop (buckets : List ℚ) : AccState → List Line → Except String AccState
  | st, [] => .ok st
  | _, .bad s :: _ => .error ("found non-numerical input: " ++ s)
  | st, .num v :: rest => parseValuesLoop buckets (processSample buckets st v) rest

/-- parseValues from main.go over a list of input lines; on success the
fields of the final state are the five return values of the Go function. -/
def parseValues (buckets : List ℚ) (lines : List Line) : Except String AccState :=
  parseValuesLoop buckets (initState buckets) lines

/-- The generation loop of linearBuckets: start, start+width, start+2*width, ... -/
def linList (start width : ℚ) : ℕ → List ℚ
  | 0 => []
  | n + 1 => start :: linList (start + width) width n

/-- linearBuckets from main.go. -/
def linearBuckets (start width : ℚ) (count : ℤ) : Except String (List ℚ) :=
  if count < 1 then .error "--linear-buckets needs a positive count"
  else .ok (linList start width count.toNat)

/-- The generation loop of exponentialBuckets: start, start*factor, ... -/
def expList (start factor : ℚ) : ℕ → List ℚ
  | 0 => []
  | n + 1 => start :: expList (start * factor) factor n

/-- exponentialBuckets from main.go, with its three checks in source order. -/
def exponentialBuckets (start factor : ℚ) (count : ℤ) : Except String (List ℚ) :=
  if count < 1 then .error "exponential buckets need a positive count"
  else if start ≤ 0 then .error "exponential buckets need a positive start value"
  else if factor ≤ 1 then .error "exponential buckets need a factor greater than 1"
  else .ok (expList start factor count.toNat)

/-- The bucket selection logic of main: explicit bounds take precedence,
then the mode flag chooses linear or exponential buckets; any other mode
leaves the bounds empty and raises no error. Parsing of the explicit comma
separated list is abstracted as the function argument parseBB. -/
def selectBounds (parseBB : String → Except String (List ℚ))
    (explicitBounds mode : String) (start factor width : ℚ) (count : ℤ) :
    Except String (List ℚ) :=
  if explicitBounds ≠ "" then parseBB explicitBounds
  else if mode = "linear" ∨ mode = "lin" then linearBuckets start width count
  else if mode = "exponential" ∨ mode = "exp" then exponentialBuckets start factor count
  else .ok []

/-- The count of bucket k (0 when k is out of range). -/
def cntAt (bs : List promBucket) (k : ℕ) : ℚ :=
  (bs.getD k { upperBound := UB.inf, count := 0 }).count

/-- The upper bound of bucket k (infinite when k is out of range). -/
def ubAt (bs : List promBucket) (k : ℕ) : UB :=
  (bs.getD k { upperBound := UB.inf, count := 0 }).upperBound

/-- The finite value of an upper bound, 0 for the infinite one. -/
def finUB : UB → ℚ
  | .fin x => x
  | .inf => 0

/-- First bucket index whose cumulative count reaches the target. -/
def firstGE (target : ℚ) : List promBucket → Option ℕ
  | [] => none
  | b :: rest => if target ≤ b.count then some 0 else (firstGE target rest).map (· + 1)

/-- The finite upper bounds of a bucket list, in order. -/
def finiteUBs (bs : List promBucket) : List ℚ :=
  bs.filterMap (fun b => match b.upperBound with | .fin x => some x | .inf => none)

/-- Linear interpolation inside bucket i for the given target rank. -/
def bqVal (bs : List promBucket) (target : ℚ) (i : ℕ) : ℚ :=
  if ubAt bs i = UB.inf then finUB (ubAt bs (i - 1))
  else if i = 0 then (target / cntAt bs 0) * finUB (ubAt bs 0)
  else
    finUB (ubAt bs (i - 1)) +
      (finUB (ubAt bs i) - finUB (ubAt bs (i - 1))) *
        ((target - cntAt bs (i - 1)) / (cntAt bs i - cntAt bs (i - 1)))

/-- Modelled from the spec: bucketQuantile is called by printSummary in
main.go but its body is not part of the inspected source. Following section
4.3 of the spec: the target rank is q times the sample count (read from the
last cumulative bucket), the first bucket whose cumulativeCount reaches the
target is located, and the estimate interpolates linearly inside that
bucket: from 0 in the first bucket; returning the lower finite edge when
the resolved bucket is the trailing infinite one; and returning the largest
finite upper bound in the guard case where no bucket reaches the target. -/
def bucketQuantile (q : ℚ) (bs : List promBucket) : ℚ :=
  let target := q * cntAt bs (bs.length - 1)
  match firstGE target bs with
  | none => (finiteUBs bs).foldr max 0
  | some i => bqVal bs target i

/-- Equality of results of fallible functions is decidable. -/
instance {ε α : Type} [DecidableEq ε] [DecidableEq α] : DecidableEq (Except ε α) := fun a b =>
  match a, b with
  | .error e₁, .error e₂ => decidable_of_iff (e₁ = e₂) (by simp)
  | .error _, .ok _ => isFalse (fun hc => Except.noConfusion hc)
  | .ok _, .error _ => isFalse (fun hc => Except.noConfusion hc)
  | .ok a₁, .ok a₂ => decidable_of_iff (a₁ = a₂) (by simp)

unseal Rat.add Rat.mul Rat.sub Rat.inv

/-! ## The Go binary search -/

theorem searchLoop_bounds (f : ℕ → Bool) :
    ∀ fuel i j, i ≤ j → i ≤ searchLoop f fuel i j ∧ searchLoop f fuel i j ≤ j := by
  intro fuel
  induction fuel with
  | zero => intro i j hij; exact ⟨le_refl _, hij⟩
  | succ fuel ih =>
    intro i j hij
    simp only [searchLoop]
    split
    · rename_i hlt
      split
      · obtain ⟨a, b⟩ := ih i ((i + j) / 2) (by omega)
        exact ⟨a, by omega⟩
      · obtain ⟨a, b⟩ := ih ((i + j) / 2 + 1) j (by omega)
        exact ⟨by omega, b⟩
    · exact ⟨le_refl _, hij⟩

theorem searchLoop_first (f : ℕ → Bool) (n : ℕ)
    (mono : ∀ a b, a ≤ b → b < n → f a = true → f b = true) :
    ∀ fuel i j, j - i ≤ fuel → i ≤ j → j ≤ n →
      (∀ k, k < i → f k = false) → (∀ k, j ≤ k → k < n → f k = true) →
      (∀ k, k < searchLoop f fuel i j → f k = false) ∧
      (∀ k, searchLoop f fuel i j ≤ k → k < n → f k = true) := by
  intro fuel
  induction fuel with
  | zero =>
    intro i j hfuel hij hjn Hi Hj
    have hij' : i = j := by omega
    subst hij'
    exact ⟨Hi, Hj⟩
  | succ fuel ih =>
    intro i j hfuel hij hjn Hi Hj
    simp only [searchLoop]
    split
    · rename_i hlt
      by_cases hf : f ((i + j) / 2) = true
      · rw [if_pos hf]
        refine ih i ((i + j) / 2) (by omega) (by omega) (by omega) Hi ?_
        intro k hk hkn
        exact mono ((i + j) / 2) k hk hkn hf
      · rw [if_neg hf]
        refine ih ((i + j) / 2 + 1) j (by omega) (by omega) hjn ?_ Hj
        intro k hk
        rcases Nat.lt_or_ge k i with h | h
        · exact Hi k h
        · cases hfk : f k with
          | false => rfl
          | true =>
            exact absurd (mono k ((i + j) / 2) (by omega) (by omega) hfk) hf
    · have hij' : i = j := by omega
      subst hij'
      exact ⟨Hi, Hj⟩

theorem searchFloat64s_le_length (a : List ℚ) (x : ℚ) : searchFloat64s a x ≤ a.length :=
  (searchLoop_bounds _ _ 0 _ (Nat.zero_le _)).2

theorem sorted_getD_mono (a : List ℚ) (hs : a.Sorted (· ≤ ·)) (p q : ℕ)
    (hpq : p ≤ q) (hq : q < a.length) : a.getD p 0 ≤ a.getD q 0 := by
  rw [List.getD_eq_getElem a 0 (lt_of_le_of_lt hpq hq), List.getD_eq_getElem a 0 hq]
  exact hs.rel_get_of_le (a := ⟨p, lt_of_le_of_lt hpq hq⟩) (b := ⟨q, hq⟩) hpq

theorem searchFloat64s_first (a : List ℚ) (hs : a.Sorted (· ≤ ·)) (x : ℚ) :
    (∀ k, k < searchFloat64s a x → a.getD k 0 < x) ∧
    (∀ k, searchFloat64s a x ≤ k → k < a.length → x ≤ a.getD k 0) := by
  have mono : ∀ p q, p ≤ q → q < a.length →
      (fun m => decide (x ≤ a.getD m 0)) p = true →
      (fun m => decide (x ≤ a.getD m 0)) q = true := by
    intro p q hpq hq hp
    simp only [decide_eq_true_eq] at hp ⊢
    exact le_trans hp (sorted_getD_mono a hs p q hpq hq)
  obtain ⟨h1, h2⟩ := searchLoop_first _ a.length mono a.length 0 a.length
    (by omega) (Nat.zero_le _) (le_refl _)
    (fun k hk => absurd hk (Nat.not_lt_zero k))
    (fun k hk hkn => absurd hkn (by omega))
  constructor
  · intro k hk
    have := h1 k hk
    simp only [decide_eq_false_iff_not] at this
    exact not_le.mp this
  · intro k h1k h2k
    have := h2 k h1k h2k
    simpa using this

/-! ## The increment loop -/

theorem incBucketsFrom_length (i : ℕ) (bs : List promBucket) :
    (incBucketsFrom i bs).length = bs.length := by
  induction bs generalizing i with
  | nil => cases i <;> simp [incBucketsFrom]
  | cons b rest ih =>
    cases i with
    | zero => simp [incBucketsFrom, ih]
    | succ i => simp [incBucketsFrom, ih]

theorem incBucketsFrom_map_ub (i : ℕ) (bs : List promBucket) :
    (incBucketsFrom i bs).map promBucket.upperBound = bs.map promBucket.upperBound := by
  induction bs generalizing i with
  | nil => cases i <;> simp [incBucketsFrom]
  | cons b rest ih =>
    cases i with
    | zero => simp [incBucketsFrom, ih]
    | succ i => simp [incBucketsFrom, ih]

theorem incBucketsFrom_cnt (i k : ℕ) (bs : List promBucket) (hk : k < bs.length) :
    cntAt (incBucketsFrom i bs) k = cntAt bs k + (if i ≤ k then 1 else 0) := by
  induction bs generalizing i k with
  | nil => simp at hk
  | cons b rest ih =>
    cases i with
    | zero =>
      cases k with
      | zero => simp [incBucketsFrom, cntAt]
      | succ k =>
        simpa [incBucketsFrom, cntAt] using ih 0 k (by simpa using hk)
    | succ i =>
      cases k with
      | zero => simp [incBucketsFrom, cntAt]
      | succ k =>
        have hrec := ih i k (by simpa using hk)
        simp only [incBucketsFrom, cntAt, List.getD_cons_succ] at hrec ⊢
        rw [hrec]
        congr 1
        simp [Nat.add_le_add_iff_right]

/-! ## Shape of one accumulation step -/

theorem processSample_result (buckets : List ℚ) (st : AccState) (v : ℚ) :
    (processSample buckets st v).result = incBucketsFrom (searchFloat64s buckets v) st.result := by
  simp only [processSample]
  split_ifs <;> rfl

theorem processSample_count (buckets : List ℚ) (st : AccState) (v : ℚ) :
    (processSample buckets st v).count = st.count + 1 := by
  simp only [processSample]
  split_ifs <;> rfl

theorem processSample_sum (buckets : List ℚ) (st : AccState) (v : ℚ) :
    (processSample buckets st v).sum = st.sum + v := by
  simp only [processSample]
  split_ifs <;> rfl

/-! ## Invariants of the scanner loop -/

theorem parseValuesLoop_ok_inv (buckets : List ℚ) (P : AccState → Prop)
    (hP : ∀ st v, P st → P (processSample buckets st v)) :
    ∀ lines st st', parseValuesLoop buckets st lines = .ok st' → P st → P st' := by
  intro lines
  induction lines with
  | nil =>
    intro st st' h hp
    simp only [parseValuesLoop] at h
    cases h
    exact hp
  | cons l rest ih =>
    intro st st' h hp
    cases l with
    | bad s => exact absurd h (by simp [parseValuesLoop])
    | num v =>
      simp only [parseValuesLoop] at h
      exact ih _ _ h (hP st v hp)

/-- The relation between the bucket list of the state and the finite bounds:
one bucket per bound, in order, then the infinite bucket. -/
def ubOk (buckets : List ℚ) (bs : List promBucket) : Prop :=
  bs.map promBucket.upperBound = buckets.map UB.fin ++ [UB.inf]

theorem map_getD (f : promBucket → UB) (l : List promBucket) (n : ℕ) (d : promBucket) :
    (l.map f).getD n (f d) = f (l.getD n d) := by
  rcases Nat.lt_or_ge n l.length with h | h
  · rw [List.getD_eq_getElem _ _ (by simpa using h), List.getD_eq_getElem _ _ h,
      List.getElem_map]
  · rw [List.getD_eq_default _ _ (by simpa using h), List.getD_eq_default _ _ h]

theorem ubOk_length (buckets : List ℚ) (bs : List promBucket) (h : ubOk buckets bs) :
    bs.length = buckets.length + 1 := by
  have := congrArg List.length h
  simpa using this

theorem ubOk_ubAt (buckets : List ℚ) (bs : List promBucket) (h : ubOk buckets bs) (k : ℕ) :
    ubAt bs k = if k < buckets.length then UB.fin (buckets.getD k 0) else UB.inf := by
  have hub : ubAt bs k = (bs.map promBucket.upperBound).getD k UB.inf := by
    simpa [ubAt] using (map_getD promBucket.upperBound bs k { upperBound := UB.inf, count := 0 }).symm
  rw [hub, h]
  split
  · rename_i hk
    rw [List.getD_eq_getElem _ _ (by simpa using Nat.lt_succ_of_lt hk),
      List.getElem_append_left (by simpa using hk), List.getElem_map,
      List.getD_eq_getElem _ _ hk]
  · rename_i hk
    rcases Nat.lt_or_ge k (buckets.length + 1) with h' | h'
    · have hk' : k = buckets.length := by omega
      subst hk'
      rw [List.getD_eq_getElem _ _ (by simp),
        List.getElem_append_right (by simp)]
      simp
    · rw [List.getD_eq_default]
      simpa using h'

theorem ubOk_init (buckets : List ℚ) : ubOk buckets (initState buckets).result := by
  simp [ubOk, initState, List.map_append, Function.comp]

theorem ubOk_step (buckets : List ℚ) (st : AccState) (v : ℚ)
    (h : ubOk buckets st.result) : ubOk buckets (processSample buckets st v).result := by
  rw [ubOk, processSample_result, incBucketsFrom_map_ub]
  exact h

theorem ubOk_of_ok (buckets : List ℚ) (lines : List Line) (st : AccState)
    (h : parseValues buckets lines = .ok st) : ubOk buckets st.result :=
  parseValuesLoop_ok_inv buckets (fun s => ubOk buckets s.result)
    (fun s v hp => ubOk_step buckets s v hp) lines _ _ h (ubOk_init buckets)

/-! ## Linear and exponential bucket generation -/

theorem linList_length (s w : ℚ) (n : ℕ) : (linList s w n).length = n := by
  induction n generalizing s with
  | zero => rfl
  | succ n ih => simp [linList, ih]

theorem linList_getD (s w : ℚ) (n k : ℕ) (hk : k < n) :
    (linList s w n).getD k 0 = s + k * w := by
  induction n generalizing s k with
  | zero => omega
  | succ n ih =>
    cases k with
    | zero => simp [linList]
    | succ k =>
      have := ih (s + w) k (by omega)
      simp only [linList, List.getD_cons_succ, this]
      push_cast
      ring

theorem expList_length (s f : ℚ) (n : ℕ) : (expList s f n).length = n := by
  induction n generalizing s with
  | zero => rfl
  | succ n ih => simp [expList, ih]

theorem expList_chain (f : ℚ) (hf : 1 < f) :
    ∀ (n : ℕ) (s : ℚ), 0 < s → List.Chain' (· < ·) (expList s f n) := by
  intro n
  induction n with
  | zero => intro s _; simp [expList]
  | succ n ih =>
    intro s hs
    cases n with
    | zero => simp [expList]
    | succ m =>
      have hsf : s < s * f := by nlinarith
      have hpos : 0 < s * f := mul_pos hs (lt_trans zero_lt_one hf)
      have htail := ih (s * f) hpos
      rw [show expList s f (m + 1 + 1) = s :: expList (s * f) f (m + 1) from rfl]
      rw [show expList (s * f) f (m + 1) = (s * f) :: expList (s * f * f) f m from rfl]
        at htail ⊢
      exact List.chain'_cons.mpr ⟨hsf, htail⟩

theorem expList_getD_succ (f : ℚ) :
    ∀ (n : ℕ) (s : ℚ) (k : ℕ), k + 1 < n →
      (expList s f n).getD (k + 1) 0 = (expList s f n).getD k 0 * f := by
  intro n
  induction n with
  | zero => intro s k h; omega
  | succ n ih =>
    intro s k h
    cases k with
    | zero =>
      cases n with
      | zero => omega
      | succ m => simp [expList]
    | succ k =>
      have := ih (s * f) k (by omega)
      simpa [expList] using this

/-- Claim C6: for every start, every width and every count of at least one,
linearBuckets succeeds and returns exactly count bounds whose element at
index k is start plus k times width. -/
theorem c6_linearBuckets_arithmetic (s w : ℚ) (c : ℤ) (hc : 1 ≤ c) :
    linearBuckets s w c = .ok (linList s w c.toNat) ∧
    (linList s w c.toNat).length = c.toNat ∧ (c.toNat : ℤ) = c ∧
    ∀ k, k < c.toNat → (linList s w c.toNat).getD k 0 = s + k * w := by
  refine ⟨?_, linList_length s w c.toNat, by omega,
    fun k hk => linList_getD s w c.toNat k hk⟩
  rw [linearBuckets, if_neg (by omega)]

/-- Witness for C6 at start 2, width 3, count 4. -/
theorem c6_witness :
    (1 : ℤ) ≤ 4 ∧
    (linearBuckets 2 3 4 = .ok (linList 2 3 (4 : ℤ).toNat) ∧
      (linList 2 3 (4 : ℤ).toNat).length = (4 : ℤ).toNat ∧ (((4 : ℤ).toNat : ℤ)) = 4 ∧
      ∀ k, k < (4 : ℤ).toNat → (linList 2 3 (4 : ℤ).toNat).getD k 0 = 2 + k * 3) :=
  ⟨by decide, c6_linearBuckets_arithmetic 2 3 4 (by decide)⟩

/-- Claim C7: for every positive start, every factor above one and every
count of at least one, exponentialBuckets succeeds and returns count bounds
where each bound is the previous one times the factor, and the bounds are
strictly increasing. -/
theorem c7_exponentialBuckets_geometric (s f : ℚ) (c : ℤ)
    (hs : 0 < s) (hf : 1 < f) (hc : 1 ≤ c) :
    exponentialBuckets s f c = .ok (expList s f c.toNat) ∧
    (expList s f c.toNat).length = c.toNat ∧ (c.toNat : ℤ) = c ∧
    (∀ k, k < c.toNat - 1 →
      (expList s f c.toNat).getD (k + 1) 0 = (expList s f c.toNat).getD k 0 * f) ∧
    List.Chain' (· < ·) (expList s f c.toNat) := by
  refine ⟨?_, expList_length s f c.toNat, by omega,
    fun k hk => expList_getD_succ f c.toNat s k (by omega), expList_chain f hf c.toNat s hs⟩
  rw [exponentialBuckets, if_neg (by omega), if_neg (by exact not_le.mpr hs),
    if_neg (by exact not_le.mpr hf)]

/-- Witness for C7 at start 1, factor 2, count 3. -/
theorem c7_witness :
    ((0 : ℚ) < 1 ∧ (1 : ℚ) < 2 ∧ (1 : ℤ) ≤ 3) ∧
    (exponentialBuckets 1 2 3 = .ok (expList 1 2 (3 : ℤ).toNat) ∧
      (expList 1 2 (3 : ℤ).toNat).length = (3 : ℤ).toNat ∧ (((3 : ℤ).toNat : ℤ)) = 3 ∧
      (∀ k, k < (3 : ℤ).toNat - 1 →
        (expList 1 2 (3 : ℤ).toNat).getD (k + 1) 0 = (expList 1 2 (3 : ℤ).toNat).getD k 0 * 2) ∧
      List.Chain' (· < ·) (expList 1 2 (3 : ℤ).toNat)) :=
  ⟨by decide, c7_exponentialBuckets_geometric 1 2 3 (by decide) (by decide) (by decide)⟩

/-- Counterexample for C8: the claim quantifies over every count, but with
count 0 the count check fires first, so a non-positive start yields the
count error, not the start error. -/
theorem c8_counterexample :
    exponentialBuckets 0 2 0 = .error "exponential buckets need a positive count" ∧
    exponentialBuckets 0 2 0 ≠ .error "exponential buckets need a positive start value" := by
  decide

/-- Claim C8 as amended: for every count of at least one, exponentialBuckets
fails with the start error whenever start is non-positive, and with the
factor error whenever the factor is at most one while start is positive; in
particular for (0, 2, 3) and (1, 1, 3). -/
theorem c8_amended_errors (s f : ℚ) (c : ℤ) (hc : 1 ≤ c) :
    (s ≤ 0 → exponentialBuckets s f c = .error "exponential buckets need a positive start value") ∧
    (0 < s → f ≤ 1 →
      exponentialBuckets s f c = .error "exponential buckets need a factor greater than 1") ∧
    exponentialBuckets 0 2 3 = .error "exponential buckets need a positive start value" ∧
    exponentialBuckets 1 1 3 = .error "exponential buckets need a factor greater than 1" := by
  refine ⟨?_, ?_, by decide, by decide⟩
  · intro h
    rw [exponentialBuckets, if_neg (by omega), if_pos h]
  · intro h1 h2
    rw [exponentialBuckets, if_neg (by omega), if_neg (not_le.mpr h1), if_pos h2]

/-- Witness for the amended C8 at start -1, factor one half, count 2. -/
theorem c8_witness :
    (1 : ℤ) ≤ 2 ∧
    (((-1 : ℚ) ≤ 0 →
      exponentialBuckets (-1) (1/2) 2 = .error "exponential buckets need a positive start value") ∧
    ((0 : ℚ) < -1 → (1/2 : ℚ) ≤ 1 →
      exponentialBuckets (-1) (1/2) 2 = .error "exponential buckets need a factor greater than 1") ∧
    exponentialBuckets 0 2 3 = .error "exponential buckets need a positive start value" ∧
    exponentialBuckets 1 1 3 = .error "exponential buckets need a factor greater than 1") :=
  ⟨by decide, c8_amended_errors (-1) (1/2) 2 (by decide)⟩

/-! ## Abort on malformed input -/

theorem parseValuesLoop_bad (buckets : List ℚ) (s : String) (rest : List Line) :
    ∀ (pre : List ℚ) (st : AccState),
      parseValuesLoop buckets st (pre.map Line.num ++ Line.bad s :: rest) =
        .error ("found non-numerical input: " ++ s) := by
  intro pre
  induction pre with
  | nil => intro st; simp [parseValuesLoop]
  | cons p ps ih => intro st; simpa [parseValuesLoop] using ih _

/-- Claim C9: if any input line fails to parse as a number, the run aborts
with the malformed sample error naming the offending token; no state is
produced and the lines after the bad one are never looked at (the result
does not depend on them). -/
theorem c9_malformed_aborts (buckets : List ℚ) (pre : List ℚ) (s : String) (rest : List Line) :
    parseValues buckets (pre.map Line.num ++ Line.bad s :: rest) =
      .error ("found non-numerical input: " ++ s) := by
  rw [parseValues]
  exact parseValuesLoop_bad buckets s rest pre _

/-! ## The infinite bucket counts every sample -/

theorem cntAt_of_all_zero (l : List promBucket) (h : ∀ b ∈ l, b.count = 0) (k : ℕ) :
    cntAt l k = 0 := by
  rcases Nat.lt_or_ge k l.length with hk | hk
  · rw [cntAt, List.getD_eq_getElem _ _ hk]
    exact h _ (List.getElem_mem hk)
  · rw [cntAt, List.getD_eq_default _ _ hk]

theorem cntAt_init (buckets : List ℚ) (k : ℕ) : cntAt (initState buckets).result k = 0 := by
  refine cntAt_of_all_zero _ ?_ k
  intro b hb
  simp only [initState, List.mem_append, List.mem_map, List.mem_singleton] at hb
  rcases hb with ⟨a, _, rfl⟩ | rfl <;> rfl

/-- The running invariant behind C2: the state has one bucket per finite
bound plus the infinite one, and the infinite bucket count equals the
sample count. -/
def lastCntOk (buckets : List ℚ) (st : AccState) : Prop :=
  st.result.length = buckets.length + 1 ∧ cntAt st.result buckets.length = st.count

theorem lastCntOk_init (buckets : List ℚ) : lastCntOk buckets (initState buckets) := by
  constructor
  · simp [initState]
  · rw [cntAt_init]
    rfl

theorem lastCntOk_step (buckets : List ℚ) (st : AccState) (v : ℚ)
    (h : lastCntOk buckets st) : lastCntOk buckets (processSample buckets st v) := by
  obtain ⟨hlen, hcnt⟩ := h
  constructor
  · rw [processSample_result, incBucketsFrom_length, hlen]
  · rw [processSample_result, processSample_count,
      incBucketsFrom_cnt _ _ _ (by rw [hlen]; omega), hcnt,
      if_pos (searchFloat64s_le_length buckets v)]

/-- Claim C2: for every boundary list and every stream of samples, after a
successful accumulation the trailing infinite bucket carries a cumulative
count equal to the total sample count. -/
theorem c2_inf_bucket_counts_all (buckets : List ℚ) (lines : List Line) (st : AccState)
    (h : parseValues buckets lines = .ok st) :
    st.result.length = buckets.length + 1 ∧
    ubAt st.result buckets.length = UB.inf ∧
    cntAt st.result buckets.length = st.count := by
  have hl := parseValuesLoop_ok_inv buckets (lastCntOk buckets)
    (lastCntOk_step buckets) lines _ _ h (lastCntOk_init buckets)
  have hub := ubOk_of_ok buckets lines st h
  refine ⟨hl.1, ?_, hl.2⟩
  rw [ubOk_ubAt _ _ hub]
  simp

/-- Witness for C2: empty bounds, one sample with value 7. -/
theorem c2_witness :
    parseValues [] [Line.num 7] =
      .ok ⟨[⟨UB.inf, 1⟩], 7, 1, 7, 7, false⟩ ∧
    ((⟨[⟨UB.inf, 1⟩], 7, 1, 7, 7, false⟩ : AccState).result.length = ([] : List ℚ).length + 1 ∧
      ubAt (⟨[⟨UB.inf, 1⟩], 7, 1, 7, 7, false⟩ : AccState).result ([] : List ℚ).length = UB.inf ∧
      cntAt (⟨[⟨UB.inf, 1⟩], 7, 1, 7, 7, false⟩ : AccState).result ([] : List ℚ).length =
        (⟨[⟨UB.inf, 1⟩], 7, 1, 7, 7, false⟩ : AccState).count) :=
  ⟨by decide, c2_inf_bucket_counts_all [] [Line.num 7] _ (by decide)⟩

/-! ## Cumulative counts are monotone -/

/-- Adjacent cumulative counts are non-decreasing. -/
def cntMono (bs : List promBucket) : Prop :=
  ∀ k, k + 1 < bs.length → cntAt bs k ≤ cntAt bs (k + 1)

theorem cntMono_inc (i : ℕ) (bs : List promBucket) (h : cntMono bs) :
    cntMono (incBucketsFrom i bs) := by
  intro k hk
  rw [incBucketsFrom_length] at hk
  rw [incBucketsFrom_cnt _ _ _ (by omega), incBucketsFrom_cnt _ _ _ hk]
  have hkk := h k hk
  by_cases hik : i ≤ k
  · rw [if_pos hik, if_pos (by omega)]
    linarith
  · rw [if_neg hik]
    split <;> linarith

/-- Claim C3: for every boundary list and every stream of samples, the
cumulative counts of the accumulated state are non-decreasing across
bucket index. -/
theorem c3_counts_monotone (buckets : List ℚ) (lines : List Line) (st : AccState)
    (h : parseValues buckets lines = .ok st) :
    ∀ k, k < st.result.length - 1 → cntAt st.result k ≤ cntAt st.result (k + 1) := by
  have hm := parseValuesLoop_ok_inv buckets (fun s => cntMono s.result)
    (fun s v hp => by
      show cntMono (processSample buckets s v).result
      rw [processSample_result]
      exact cntMono_inc _ _ hp)
    lines _ _ h (fun k _ => by simp [cntAt_init])
  intro k hk
  exact hm k (by omega)

/-- Witness for C3: bounds 5, samples 9 and 3. -/
theorem c3_witness :
    parseValues [5] [Line.num 9, Line.num 3] =
      .ok ⟨[⟨UB.fin 5, 1⟩, ⟨UB.inf, 2⟩], 12, 2, 3, 9, false⟩ ∧
    (∀ k, k < (⟨[⟨UB.fin 5, 1⟩, ⟨UB.inf, 2⟩], 12, 2, 3, 9, false⟩ : AccState).result.length - 1 →
      cntAt (⟨[⟨UB.fin 5, 1⟩, ⟨UB.inf, 2⟩], 12, 2, 3, 9, false⟩ : AccState).result k ≤
        cntAt (⟨[⟨UB.fin 5, 1⟩, ⟨UB.inf, 2⟩], 12, 2, 3, 9, false⟩ : AccState).result (k + 1)) :=
  ⟨by decide, c3_counts_monotone [5] [Line.num 9, Line.num 3] _ (by decide)⟩

/-! ## One accumulation step: search position and increments -/

/-- Claim C1: for a sorted finite boundary list, the insertion point found
by the binary search is the index of the first finite bound at least the
sample, exactly the buckets at index at least that point (the trailing
infinite bucket included) have their count incremented by one, and a
bucket count increases exactly when the sample is at most its upper
bound. -/
theorem c1_search_and_increment (buckets : List ℚ) (hs : buckets.Sorted (· ≤ ·))
    (st : AccState) (hub : ubOk buckets st.result) (v : ℚ) :
    (∀ k, k < searchFloat64s buckets v → buckets.getD k 0 < v) ∧
    (∀ k, k < buckets.length → searchFloat64s buckets v ≤ k → v ≤ buckets.getD k 0) ∧
    searchFloat64s buckets v ≤ buckets.length ∧
    (∀ k, k < st.result.length →
      cntAt (processSample buckets st v).result k =
        cntAt st.result k + (if searchFloat64s buckets v ≤ k then 1 else 0)) ∧
    (∀ k, k < st.result.length →
      (cntAt (processSample buckets st v).result k = cntAt st.result k + 1 ↔
        leUB v (ubAt st.result k) = true)) := by
  obtain ⟨hlt, hge⟩ := searchFloat64s_first buckets hs v
  refine ⟨hlt, fun k hk hik => hge k hik hk, searchFloat64s_le_length buckets v, ?_, ?_⟩
  · intro k hk
    rw [processSample_result, incBucketsFrom_cnt _ _ _ hk]
  · intro k hk
    rw [processSample_result, incBucketsFrom_cnt _ _ _ hk]
    have hua := ubOk_ubAt _ _ hub k
    by_cases hik : searchFloat64s buckets v ≤ k
    · rw [if_pos hik]
      refine ⟨fun _ => ?_, fun _ => rfl⟩
      rw [hua]
      split
      · rename_i hkb
        simp only [leUB, decide_eq_true_eq]
        exact hge k hik hkb
      · simp [leUB]
    · rw [if_neg hik]
      push_neg at hik
      constructor
      · intro hcnt
        exfalso
        simp at hcnt
      · intro hle
        exfalso
        have hkb : k < buckets.length := lt_of_lt_of_le hik (searchFloat64s_le_length buckets v)
        rw [hua, if_pos hkb] at hle
        simp only [leUB, decide_eq_true_eq] at hle
        exact absurd (hlt k hik) (not_lt.mpr hle)

/-- Witness for C1: bounds 1 and 3, the fresh state, sample 2. -/
theorem c1_witness :
    (([1, 3] : List ℚ).Sorted (· ≤ ·) ∧ ubOk [1, 3] (initState [1, 3]).result) ∧
    ((∀ k, k < searchFloat64s [1, 3] 2 → ([1, 3] : List ℚ).getD k 0 < 2) ∧
     (∀ k, k < ([1, 3] : List ℚ).length → searchFloat64s [1, 3] 2 ≤ k →
       2 ≤ ([1, 3] : List ℚ).getD k 0) ∧
     searchFloat64s [1, 3] 2 ≤ ([1, 3] : List ℚ).length ∧
     (∀ k, k < (initState [1, 3]).result.length →
       cntAt (processSample [1, 3] (initState [1, 3]) 2).result k =
         cntAt (initState [1, 3]).result k +
           (if searchFloat64s [1, 3] 2 ≤ k then 1 else 0)) ∧
     (∀ k, k < (initState [1, 3]).result.length →
       (cntAt (processSample [1, 3] (initState [1, 3]) 2).result k =
          cntAt (initState [1, 3]).result k + 1 ↔
        leUB 2 (ubAt (initState [1, 3]).result k) = true))) :=
  ⟨⟨by decide, by unfold ubOk; decide⟩,
    c1_search_and_increment [1, 3] (by decide) (initState [1, 3]) (by unfold ubOk; decide) 2⟩

/-! ## Round trip on the linear example -/

/-- Claim C4: samples 1 to 5 with linear buckets from 1, width 1, count 5
give upper bounds 1, 2, 3, 4, 5 and infinity with cumulative counts
1, 2, 3, 4, 5, 5, with min 1, max 5, count 5 and sum 15, so the average
is 3. -/
theorem c4_round_trip :
    linearBuckets 1 1 5 = .ok [1, 2, 3, 4, 5] ∧
    ∃ st, parseValues [1, 2, 3, 4, 5]
        [Line.num 1, Line.num 2, Line.num 3, Line.num 4, Line.num 5] = .ok st ∧
      st.result = [⟨UB.fin 1, 1⟩, ⟨UB.fin 2, 2⟩, ⟨UB.fin 3, 3⟩, ⟨UB.fin 4, 4⟩,
        ⟨UB.fin 5, 5⟩, ⟨UB.inf, 5⟩] ∧
      st.min = 1 ∧ st.max = 5 ∧ st.count = 5 ∧ st.sum = 15 ∧ st.sum / st.count = 3 := by
  refine ⟨by decide,
    ⟨⟨[⟨UB.fin 1, 1⟩, ⟨UB.fin 2, 2⟩, ⟨UB.fin 3, 3⟩, ⟨UB.fin 4, 4⟩, ⟨UB.fin 5, 5⟩,
        ⟨UB.inf, 5⟩], 15, 5, 1, 5, false⟩,
      by decide, by decide, by decide, by decide, by decide, by decide, by decide⟩⟩

/-! ## Unknown mode: empty bounds, one infinite bucket -/

theorem parseValuesLoop_num (buckets : List ℚ) :
    ∀ (vs : List ℚ) (st : AccState),
      parseValuesLoop buckets st (vs.map Line.num) =
        .ok (vs.foldl (processSample buckets) st) := by
  intro vs
  induction vs with
  | nil => intro st; simp [parseValuesLoop]
  | cons v vs ih => intro st; simpa [parseValuesLoop] using ih _

theorem foldl_processSample_count (buckets : List ℚ) :
    ∀ (vs : List ℚ) (st : AccState),
      (vs.foldl (processSample buckets) st).count = st.count + vs.length := by
  intro vs
  induction vs with
  | nil => intro st; simp
  | cons v vs ih =>
    intro st
    rw [List.foldl_cons, ih, processSample_count]
    simp only [List.length_cons]
    push_cast
    ring

/-- Claim C10: with no explicit bucket list and a mode flag that is none of
the recognised spellings, no error is raised: the bounds stay empty, the
accumulated histogram has only the single infinite bucket, and every
sample is counted in it. -/
theorem c10_unknown_mode_ignored (parseBB : String → Except String (List ℚ))
    (mode : String) (start factor width : ℚ) (count : ℤ)
    (h1 : mode ≠ "linear") (h2 : mode ≠ "lin") (h3 : mode ≠ "exponential") (h4 : mode ≠ "exp")
    (vs : List ℚ) :
    selectBounds parseBB "" mode start factor width count = .ok [] ∧
    ∃ st, parseValues [] (vs.map Line.num) = .ok st ∧
      st.result.length = 1 ∧ ubAt st.result 0 = UB.inf ∧
      cntAt st.result 0 = st.count ∧ st.count = vs.length := by
  constructor
  · rw [selectBounds, if_neg (by simp), if_neg (by simp [h1, h2]), if_neg (by simp [h3, h4])]
  · have hok : parseValues [] (vs.map Line.num) =
        .ok (vs.foldl (processSample []) (initState [])) :=
      parseValuesLoop_num [] vs (initState [])
    have hl := parseValuesLoop_ok_inv [] (lastCntOk []) (lastCntOk_step [])
      (vs.map Line.num) _ _ hok (lastCntOk_init [])
    have hub := ubOk_of_ok [] _ _ hok
    have hcount := foldl_processSample_count [] vs (initState [])
    refine ⟨_, hok, ?_, ?_, hl.2, ?_⟩
    · simpa using hl.1
    · rw [ubOk_ubAt _ _ hub]
      simp
    · rw [hcount]
      simp [initState]

/-- Witness for C10 at mode foo with samples 2 and 5. -/
theorem c10_witness :
    ("foo" ≠ "linear" ∧ "foo" ≠ "lin" ∧ "foo" ≠ "exponential" ∧ "foo" ≠ "exp") ∧
    (selectBounds (fun _ => .ok []) "" "foo" 1 5 1 10 = .ok [] ∧
     ∃ st, parseValues [] (([2, 5] : List ℚ).map Line.num) = .ok st ∧
       st.result.length = 1 ∧ ubAt st.result 0 = UB.inf ∧
       cntAt st.result 0 = st.count ∧ st.count = ([2, 5] : List ℚ).length) :=
  ⟨⟨by decide, by decide, by decide, by decide⟩,
    c10_unknown_mode_ignored (fun _ => .ok []) "foo" 1 5 1 10
      (by decide) (by decide) (by decide) (by decide) [2, 5]⟩

/-! ## The quantile estimator: locating the bucket -/

theorem firstGE_spec (t : ℚ) :
    ∀ (bs : List promBucket) (i : ℕ), firstGE t bs = some i →
      i < bs.length ∧ t ≤ cntAt bs i ∧ ∀ k, k < i → cntAt bs k < t := by
  intro bs
  induction bs with
  | nil => intro i h; simp [firstGE] at h
  | cons b rest ih =>
    intro i h
    simp only [firstGE] at h
    split at h
    · rename_i ht
      cases h
      exact ⟨by simp, by simpa [cntAt], fun k hk => absurd hk (by omega)⟩
    · rename_i ht
      obtain ⟨j, hj, hji⟩ := Option.map_eq_some'.mp h
      obtain ⟨h1, h2, h3⟩ := ih j hj
      subst hji
      refine ⟨by simp; omega, by simpa [cntAt] using h2, fun k hk => ?_⟩
      cases k with
      | zero => simpa [cntAt] using not_le.mp ht
      | succ k => simpa [cntAt] using h3 k (by omega)

theorem firstGE_exists (t : ℚ) :
    ∀ (bs : List promBucket) (m : ℕ), m < bs.length → t ≤ cntAt bs m →
      ∃ i, firstGE t bs = some i := by
  intro bs
  induction bs with
  | nil => intro m hm; simp at hm
  | cons b rest ih =>
    intro m hm ht
    by_cases hb : t ≤ b.count
    · exact ⟨0, by simp [firstGE, hb]⟩
    · cases m with
      | zero => exact absurd (by simpa [cntAt] using ht) hb
      | succ m =>
        obtain ⟨j, hj⟩ := ih m (by simpa using hm) (by simpa [cntAt] using ht)
        exact ⟨j + 1, by simp [firstGE, hb, hj]⟩

theorem firstGE_mono (bs : List promBucket) (t1 t2 : ℚ) (h12 : t1 ≤ t2) (i1 i2 : ℕ)
    (h1 : firstGE t1 bs = some i1) (h2 : firstGE t2 bs = some i2) : i1 ≤ i2 := by
  by_contra hc
  push_neg at hc
  have s1 := firstGE_spec t1 bs i1 h1
  have s2 := firstGE_spec t2 bs i2 h2
  have := s1.2.2 i2 hc
  linarith [s2.2.1]

/-! ## The quantile estimator: well formed states -/

/-- A well formed accumulated bucket list: non-empty, all buckets but the
last have finite bounds, the last bound is infinite, the finite bounds are
sorted and the cumulative counts are monotone and non-negative. -/
def wfState (bs : List promBucket) : Prop :=
  0 < bs.length ∧
  (∀ k, k < bs.length - 1 → (ubAt bs k).isFin = true) ∧
  ubAt bs (bs.length - 1) = UB.inf ∧
  (∀ k, k < bs.length - 2 → finUB (ubAt bs k) ≤ finUB (ubAt bs (k + 1))) ∧
  (∀ k, k < bs.length - 1 → cntAt bs k ≤ cntAt bs (k + 1)) ∧
  (∀ k, k < bs.length → 0 ≤ cntAt bs k)

theorem isFin_ne_inf (u : UB) (h : u.isFin = true) : u ≠ UB.inf := by
  cases u with
  | fin x => simp
  | inf => simp [UB.isFin] at h

theorem lt_pred_of_ne_inf (bs : List promBucket)
    (hinf : ubAt bs (bs.length - 1) = UB.inf) (i : ℕ) (hin : i < bs.length)
    (hne : ubAt bs i ≠ UB.inf) : i < bs.length - 1 := by
  rcases Nat.lt_or_ge i (bs.length - 1) with h | h
  · exact h
  · exfalso
    have hieq : i = bs.length - 1 := by omega
    exact hne (by rw [hieq, hinf])

theorem ubChain (bs : List promBucket)
    (hubm : ∀ k, k < bs.length - 2 → finUB (ubAt bs k) ≤ finUB (ubAt bs (k + 1)))
    (a b : ℕ) (hab : a ≤ b) (hb : b < bs.length - 1) :
    finUB (ubAt bs a) ≤ finUB (ubAt bs b) := by
  induction b with
  | zero =>
    have ha : a = 0 := by omega
    subst ha
    exact le_refl _
  | succ b ih =>
    rcases Nat.lt_or_ge a (b + 1) with h | h
    · exact le_trans (ih (by omega) (by omega)) (hubm b (by omega))
    · have ha : a = b + 1 := by omega
      subst ha
      exact le_refl _

theorem cntChain (bs : List promBucket)
    (hcm : ∀ k, k < bs.length - 1 → cntAt bs k ≤ cntAt bs (k + 1))
    (a b : ℕ) (hab : a ≤ b) (hb : b < bs.length) :
    cntAt bs a ≤ cntAt bs b := by
  induction b with
  | zero =>
    have ha : a = 0 := by omega
    subst ha
    exact le_refl _
  | succ b ih =>
    rcases Nat.lt_or_ge a (b + 1) with h | h
    · exact le_trans (ih (by omega) (by omega)) (hcm b (by omega))
    · have ha : a = b + 1 := by omega
      subst ha
      exact le_refl _

/-! ## The quantile estimator: interpolation bounds -/

theorem bqVal_le_ub (bs : List promBucket)
    (hfin : ∀ k, k < bs.length - 1 → (ubAt bs k).isFin = true)
    (hubm : ∀ k, k < bs.length - 2 → finUB (ubAt bs k) ≤ finUB (ubAt bs (k + 1)))
    (hcnn : ∀ k, k < bs.length → 0 ≤ cntAt bs k)
    (hnn : ∀ k, k < bs.length - 1 → 0 ≤ finUB (ubAt bs k))
    (t : ℚ) (i : ℕ) (ht0 : 0 ≤ t) (hi : firstGE t bs = some i)
    (hifin : i < bs.length - 1) :
    bqVal bs t i ≤ finUB (ubAt bs i) := by
  obtain ⟨hin, hti, hlt⟩ := firstGE_spec t bs i hi
  have hnotinf : ubAt bs i ≠ UB.inf := isFin_ne_inf _ (hfin i hifin)
  rw [bqVal, if_neg hnotinf]
  by_cases hi0 : i = 0
  · subst hi0
    rw [if_pos rfl]
    have hu0 : 0 ≤ finUB (ubAt bs 0) := hnn 0 hifin
    rcases eq_or_lt_of_le (hcnn 0 (by omega)) with heq | hpos
    · have ht : t = 0 := le_antisymm (heq ▸ hti) ht0
      rw [ht, zero_div, zero_mul]
      exact hu0
    · have hdiv : t / cntAt bs 0 ≤ 1 := (div_le_one hpos).mpr hti
      calc (t / cntAt bs 0) * finUB (ubAt bs 0)
          ≤ 1 * finUB (ubAt bs 0) := mul_le_mul_of_nonneg_right hdiv hu0
        _ = finUB (ubAt bs 0) := one_mul _
  · rw [if_neg hi0]
    have hprev : cntAt bs (i - 1) < t := hlt (i - 1) (by omega)
    have hd : 0 < cntAt bs i - cntAt bs (i - 1) := by linarith
    have hUL : finUB (ubAt bs (i - 1)) ≤ finUB (ubAt bs i) := by
      have hstep := hubm (i - 1) (by omega)
      have hsub : i - 1 + 1 = i := by omega
      rwa [hsub] at hstep
    have hfrac : (t - cntAt bs (i - 1)) / (cntAt bs i - cntAt bs (i - 1)) ≤ 1 :=
      (div_le_one hd).mpr (by linarith)
    have hmul := mul_le_mul_of_nonneg_left hfrac
      (by linarith : (0 : ℚ) ≤ finUB (ubAt bs i) - finUB (ubAt bs (i - 1)))
    linarith

theorem bqVal_ge_lower (bs : List promBucket)
    (hinf : ubAt bs (bs.length - 1) = UB.inf)
    (hubm : ∀ k, k < bs.length - 2 → finUB (ubAt bs k) ≤ finUB (ubAt bs (k + 1)))
    (t : ℚ) (i : ℕ) (hi : firstGE t bs = some i) (h1i : 1 ≤ i) :
    finUB (ubAt bs (i - 1)) ≤ bqVal bs t i := by
  obtain ⟨hin, hti, hlt⟩ := firstGE_spec t bs i hi
  rw [bqVal]
  by_cases hinfi : ubAt bs i = UB.inf
  · rw [if_pos hinfi]
  · rw [if_neg hinfi, if_neg (by omega : ¬i = 0)]
    have hii : i < bs.length - 1 := lt_pred_of_ne_inf bs hinf i hin hinfi
    have hprev : cntAt bs (i - 1) < t := hlt (i - 1) (by omega)
    have hd : 0 < cntAt bs i - cntAt bs (i - 1) := by linarith
    have hUL : finUB (ubAt bs (i - 1)) ≤ finUB (ubAt bs i) := by
      have hstep := hubm (i - 1) (by omega)
      have hsub : i - 1 + 1 = i := by omega
      rwa [hsub] at hstep
    have hfrac : 0 ≤ (t - cntAt bs (i - 1)) / (cntAt bs i - cntAt bs (i - 1)) :=
      div_nonneg (by linarith) (by linarith)
    have hmul := mul_nonneg
      (by linarith : (0 : ℚ) ≤ finUB (ubAt bs i) - finUB (ubAt bs (i - 1))) hfrac
    linarith

theorem bqVal_mono_same (bs : List promBucket)
    (hinf : ubAt bs (bs.length - 1) = UB.inf)
    (hubm : ∀ k, k < bs.length - 2 → finUB (ubAt bs k) ≤ finUB (ubAt bs (k + 1)))
    (hcnn : ∀ k, k < bs.length → 0 ≤ cntAt bs k)
    (hnn : ∀ k, k < bs.length - 1 → 0 ≤ finUB (ubAt bs k))
    (t1 t2 : ℚ) (i : ℕ) (h0 : 0 ≤ t1) (h12 : t1 ≤ t2)
    (hi1 : firstGE t1 bs = some i) (hi2 : firstGE t2 bs = some i) :
    bqVal bs t1 i ≤ bqVal bs t2 i := by
  obtain ⟨hin, ht1i, hlt1⟩ := firstGE_spec t1 bs i hi1
  obtain ⟨-, ht2i, -⟩ := firstGE_spec t2 bs i hi2
  rw [bqVal, bqVal]
  by_cases hinfi : ubAt bs i = UB.inf
  · rw [if_pos hinfi, if_pos hinfi]
  · rw [if_neg hinfi, if_neg hinfi]
    have hii : i < bs.length - 1 := lt_pred_of_ne_inf bs hinf i hin hinfi
    by_cases hi0 : i = 0
    · subst hi0
      rw [if_pos rfl, if_pos rfl]
      have hu0 : 0 ≤ finUB (ubAt bs 0) := hnn 0 hii
      rcases eq_or_lt_of_le (hcnn 0 (by omega)) with heq | hpos
      · have ht1z : t1 = 0 := le_antisymm (heq ▸ ht1i) h0
        have ht2z : t2 = 0 := le_antisymm (heq ▸ ht2i) (by linarith)
        rw [ht1z, ht2z]
      · have hdiv : t1 / cntAt bs 0 ≤ t2 / cntAt bs 0 :=
          (div_le_div_iff_of_pos_right hpos).mpr h12
        exact mul_le_mul_of_nonneg_right hdiv hu0
    · rw [if_neg hi0, if_neg hi0]
      have hprev : cntAt bs (i - 1) < t1 := hlt1 (i - 1) (by omega)
      have hd : 0 < cntAt bs i - cntAt bs (i - 1) := by linarith
      have hUL : finUB (ubAt bs (i - 1)) ≤ finUB (ubAt bs i) := by
        have hstep := hubm (i - 1) (by omega)
        have hsub : i - 1 + 1 = i := by omega
        rwa [hsub] at hstep
      have hfr : (t1 - cntAt bs (i - 1)) / (cntAt bs i - cntAt bs (i - 1)) ≤
          (t2 - cntAt bs (i - 1)) / (cntAt bs i - cntAt bs (i - 1)) :=
        (div_le_div_iff_of_pos_right hd).mpr (by linarith)
      have hmul := mul_le_mul_of_nonneg_left hfr
        (by linarith : (0 : ℚ) ≤ finUB (ubAt bs i) - finUB (ubAt bs (i - 1)))
      linarith

theorem bucketQuantile_eq_bqVal (q : ℚ) (bs : List promBucket) (i : ℕ)
    (h : firstGE (q * cntAt bs (bs.length - 1)) bs = some i) :
    bucketQuantile q bs = bqVal bs (q * cntAt bs (bs.length - 1)) i := by
  simp only [bucketQuantile, h]

/-- Monotonicity of the spec-modelled quantile estimate in the rank, for
any well formed state whose finite bounds are non-negative. -/
theorem bucketQuantile_mono (bs : List promBucket) (hwf : wfState bs)
    (hnn : ∀ k, k < bs.length - 1 → 0 ≤ finUB (ubAt bs k))
    (q1 q2 : ℚ) (h0 : 0 ≤ q1) (h12 : q1 ≤ q2) (h21 : q2 ≤ 1) :
    bucketQuantile q1 bs ≤ bucketQuantile q2 bs := by
  obtain ⟨hlen, hfin, hinf, hubm, hcm, hcnn⟩ := hwf
  have htot0 : 0 ≤ cntAt bs (bs.length - 1) := hcnn (bs.length - 1) (by omega)
  have ht10 : 0 ≤ q1 * cntAt bs (bs.length - 1) := mul_nonneg h0 htot0
  have ht12 : q1 * cntAt bs (bs.length - 1) ≤ q2 * cntAt bs (bs.length - 1) :=
    mul_le_mul_of_nonneg_right h12 htot0
  have ht2top : q2 * cntAt bs (bs.length - 1) ≤ cntAt bs (bs.length - 1) := by nlinarith
  have ht1top : q1 * cntAt bs (bs.length - 1) ≤ cntAt bs (bs.length - 1) :=
    le_trans ht12 ht2top
  obtain ⟨i1, hi1⟩ := firstGE_exists _ bs (bs.length - 1) (by omega) ht1top
  obtain ⟨i2, hi2⟩ := firstGE_exists _ bs (bs.length - 1) (by omega) ht2top
  rw [bucketQuantile_eq_bqVal q1 bs i1 hi1, bucketQuantile_eq_bqVal q2 bs i2 hi2]
  have hle : i1 ≤ i2 := firstGE_mono bs _ _ ht12 i1 i2 hi1 hi2
  rcases eq_or_lt_of_le hle with heq | hlt
  · subst heq
    exact bqVal_mono_same bs hinf hubm hcnn hnn _ _ i1 ht10 ht12 hi1 hi2
  · have hin2 : i2 < bs.length := (firstGE_spec _ bs i2 hi2).1
    have hifin1 : i1 < bs.length - 1 := by omega
    calc bqVal bs (q1 * cntAt bs (bs.length - 1)) i1
        ≤ finUB (ubAt bs i1) :=
          bqVal_le_ub bs hfin hubm hcnn hnn _ i1 ht10 hi1 hifin1
      _ ≤ finUB (ubAt bs (i2 - 1)) := ubChain bs hubm i1 (i2 - 1) (by omega) (by omega)
      _ ≤ bqVal bs (q2 * cntAt bs (bs.length - 1)) i2 :=
          bqVal_ge_lower bs hinf hubm _ i2 hi2 (by omega)

/-! ## Claim C5: monotonicity over accumulated states -/

theorem cntAt_nonneg_inc (i : ℕ) (bs : List promBucket)
    (h : ∀ k, 0 ≤ cntAt bs k) : ∀ k, 0 ≤ cntAt (incBucketsFrom i bs) k := by
  intro k
  rcases Nat.lt_or_ge k bs.length with hk | hk
  · rw [incBucketsFrom_cnt _ _ _ hk]
    have := h k
    split <;> linarith
  · rw [cntAt, List.getD_eq_default _ _ (by rw [incBucketsFrom_length]; exact hk)]

theorem cntAt_nonneg_of_ok (buckets : List ℚ) (lines : List Line) (st : AccState)
    (h : parseValues buckets lines = .ok st) : ∀ k, 0 ≤ cntAt st.result k :=
  parseValuesLoop_ok_inv buckets (fun s => ∀ k, 0 ≤ cntAt s.result k)
    (fun s v hp => by
      show ∀ k, 0 ≤ cntAt (processSample buckets s v).result k
      rw [processSample_result]
      exact cntAt_nonneg_inc _ _ hp)
    lines _ _ h (fun k => by simp [cntAt_init])

theorem cntMono_of_ok (buckets : List ℚ) (lines : List Line) (st : AccState)
    (h : parseValues buckets lines = .ok st) : cntMono st.result :=
  parseValuesLoop_ok_inv buckets (fun s => cntMono s.result)
    (fun s v hp => by
      show cntMono (processSample buckets s v).result
      rw [processSample_result]
      exact cntMono_inc _ _ hp)
    lines _ _ h (fun k _ => by simp [cntAt_init])

theorem finUB_ubAt_of_ubOk (buckets : List ℚ) (bs : List promBucket)
    (h : ubOk buckets bs) (k : ℕ) (hk : k < buckets.length) :
    finUB (ubAt bs k) = buckets.getD k 0 := by
  rw [ubOk_ubAt _ _ h, if_pos hk]
  rfl

/-- Claim C5 as amended: for any state accumulated from a sorted boundary
list whose bounds are all non-negative, the spec-modelled bucketQuantile is
a monotone non-decreasing function of the rank q on ranks between 0 and 1
(so in particular p50, p90, p95, p99 are ordered). Without the
non-negativity restriction the claim fails, see the counterexample. -/
theorem c5_amended_quantile_monotone (buckets : List ℚ) (hs : buckets.Sorted (· ≤ ·))
    (hbnn : ∀ b ∈ buckets, 0 ≤ b) (lines : List Line) (st : AccState)
    (hok : parseValues buckets lines = .ok st) (q1 q2 : ℚ)
    (h0 : 0 ≤ q1) (h12 : q1 ≤ q2) (h21 : q2 ≤ 1) :
    bucketQuantile q1 st.result ≤ bucketQuantile q2 st.result := by
  have hub := ubOk_of_ok buckets lines st hok
  have hlen := ubOk_length _ _ hub
  have hmono := cntMono_of_ok buckets lines st hok
  have hnonneg := cntAt_nonneg_of_ok buckets lines st hok
  have hgetnn : ∀ k, k < buckets.length → 0 ≤ buckets.getD k 0 := by
    intro k hk
    rw [List.getD_eq_getElem _ _ hk]
    exact hbnn _ (List.getElem_mem hk)
  have hnn : ∀ k, k < st.result.length - 1 → 0 ≤ finUB (ubAt st.result k) := by
    intro k hk
    rw [finUB_ubAt_of_ubOk buckets _ hub k (by omega)]
    exact hgetnn k (by omega)
  refine bucketQuantile_mono st.result ⟨by omega, ?_, ?_, ?_, ?_, fun k _ => hnonneg k⟩
    hnn q1 q2 h0 h12 h21
  · intro k hk
    rw [ubOk_ubAt _ _ hub, if_pos (by omega)]
    rfl
  · rw [show st.result.length - 1 = buckets.length by omega,
      ubOk_ubAt _ _ hub]
    simp
  · intro k hk
    rw [finUB_ubAt_of_ubOk buckets _ hub k (by omega),
      finUB_ubAt_of_ubOk buckets _ hub (k + 1) (by omega)]
    exact sorted_getD_mono buckets hs k (k + 1) (by omega) (by omega)
  · intro k hk
    exact hmono k (by omega)

/-- Counterexample for C5: the claim as stated fails on an accumulated
state with a negative finite bound. With the single bound -10 and two
samples of -20, the estimate at rank one half is strictly below the
estimate at rank one quarter. -/
theorem c5_counterexample :
    parseValues [-10] [Line.num (-20), Line.num (-20)] =
      .ok ⟨[⟨UB.fin (-10), 2⟩, ⟨UB.inf, 2⟩], -40, 2, -20, -20, false⟩ ∧
    bucketQuantile (1/2) (⟨[⟨UB.fin (-10), 2⟩, ⟨UB.inf, 2⟩], -40, 2, -20, -20, false⟩ :
        AccState).result <
      bucketQuantile (1/4) (⟨[⟨UB.fin (-10), 2⟩, ⟨UB.inf, 2⟩], -40, 2, -20, -20, false⟩ :
        AccState).result := by
  decide

/-- Witness for the amended C5: bound 1, one sample of value 2, ranks one
quarter and three quarters. -/
theorem c5_witness :
    (([1] : List ℚ).Sorted (· ≤ ·) ∧ (∀ b ∈ ([1] : List ℚ), 0 ≤ b) ∧
      parseValues [1] [Line.num 2] =
        .ok ⟨[⟨UB.fin 1, 0⟩, ⟨UB.inf, 1⟩], 2, 1, 2, 2, false⟩ ∧
      (0 : ℚ) ≤ 1/4 ∧ (1/4 : ℚ) ≤ 3/4 ∧ (3/4 : ℚ) ≤ 1) ∧
    bucketQuantile (1/4) (⟨[⟨UB.fin 1, 0⟩, ⟨UB.inf, 1⟩], 2, 1, 2, 2, false⟩ :
        AccState).result ≤
      bucketQuantile (3/4) (⟨[⟨UB.fin 1, 0⟩, ⟨UB.inf, 1⟩], 2, 1, 2, 2, false⟩ :
        AccState).result :=
  ⟨⟨by decide, by decide, by decide, by decide, by decide, by decide⟩,
    c5_amended_quantile_monotone [1] (by decide) (by decide) [Line.num 2] _ (by decide)
      (1/4) (3/4) (by decide) (by decide) (by decide)⟩
